import Mathlib

/-!
# Verification of the xrand randomness utilities

A shallow embedding of `rand.go` from the `actforgood/xrand` Go package.

Modelling conventions:
* The shared pseudo-random generator is modelled by its draw stream: a function
  `ds : Nat → Nat` giving the successive `Int63()` results (normalised to 63 bits).
* Go machine integers (`int`, `int64`, `time.Duration`) are modelled as `Int`
  with explicit two's-complement wrapping (`wrap64`) where overflow can occur.
* Loops whose termination depends on the random stream (rejection sampling)
  take an explicit fuel argument; running out of fuel is reported as
  `GoResult.outOfFuel`, an artifact of the embedding, distinct from `GoResult.fatal`
  which models a Go run-time panic.
* `float64` values are modelled as exact rationals, following the spec's §4.4
  numeric semantics ("duration is treated as a real-valued magnitude ...
  preserve sub-unit precision through the multiplication before truncating");
  the Go float-to-integer conversion truncates toward zero.
-/

set_option maxRecDepth 8192

namespace Xrand

/-- Outcome of running a piece of Go code: a normal result, a run-time
panic (`fatal`), or exhaustion of the embedding's fuel (`outOfFuel`). -/
inductive GoResult (α : Type) where
  | ok (v : α)
  | fatal
  | outOfFuel
  deriving DecidableEq, Repr

/-- The shared generator's `Int63()` primitive: draw number `i` of the stream,
normalised to a 63-bit non-negative value as the `math/rand` contract states. -/
def int63 (ds : Nat → Nat) (i : Nat) : Nat := ds i % 2 ^ 63

/-- The `math/rand` primitive `Int31()`: `int32(r.Int63() >> 32)`. -/
def int31 (ds : Nat → Nat) (i : Nat) : Nat := int63 ds i / 2 ^ 32

/-- The loop of `countBits` from rand.go:
`for x--; x > 0; x >>= 1 { bitsNo++ }`, after the initial decrement.
The fuel argument makes the recursion structural; `countBits` supplies
fuel `x`, which always suffices (the loop halves its argument). -/
def countBitsGo : Nat → Nat → Nat → Nat
  | 0, _, acc => acc
  | fuel + 1, x, acc => if 0 < x then countBitsGo fuel (x / 2) (acc + 1) else acc

/-- The function `countBits` from rand.go: the number of bits `x` fits in
(computed on `x - 1`; note `countBits 1 = 0`). -/
def countBits (x : Nat) : Nat := countBitsGo x (x - 1) 0

/-- The constant `AlphanumAlphabet` from rand.go: ASCII lowercase letters and digits. -/
def AlphanumAlphabet : List Char :=
  ['a', 'b', 'c', 'd', 'e', 'f', 'g', 'h', 'i', 'j', 'k', 'l', 'm',
   'n', 'o', 'p', 'q', 'r', 's', 't', 'u', 'v', 'w', 'x', 'y', 'z',
   '0', '1', '2', '3', '4', '5', '6', '7', '8', '9']

/-- The `for i := 0; i < n;` loop of `String` from rand.go.
State: current (already shifted) draw value `cur`, `rem`aining slots,
index `j` of the next fresh draw, and the bytes emitted so far `acc`
(the Go loop variable `i` is `acc.length`). -/
def stringLoop (a : List Char) (k mask amax n : Nat) (ds : Nat → Nat) :
    Nat → Nat → Nat → Nat → List Char → GoResult (List Char)
  | 0, _, _, _, _ => .outOfFuel
  | fuel + 1, cur, rem, j, acc =>
    if acc.length < n then
      let st := if rem = 0 then (int63 ds j, amax, j + 1) else (cur, rem, j)
      let idx := st.1 &&& mask
      let acc2 := if idx < a.length then acc ++ [a.getD idx 'a'] else acc
      stringLoop a k mask amax n ds fuel (st.1 >>> k) (st.2.1 - 1) st.2.2 acc2
    else .ok acc

/-- The function `String` from rand.go. The alphabet is the first variadic argument
(`[]` models both the omitted and the empty-string case, which fall back to
`AlphanumAlphabet`). When `countBits` of the alphabet size is `0` (exactly the
one-symbol alphabets), the Go expression `63 / alphabetIdxBits` divides by
zero, a run-time panic, modelled as `GoResult.fatal`. -/
def randString (ds : Nat → Nat) (n : Nat) (alphabet : List Char) (fuel : Nat) :
    GoResult (List Char) :=
  let a := if 0 < alphabet.length then alphabet else AlphanumAlphabet
  let bits := countBits a.length
  if bits = 0 then .fatal
  else stringLoop a bits ((1 <<< bits) - 1) (63 / bits) n ds fuel (int63 ds 0) (63 / bits) 1 []

/-- Two's-complement wrapping of a mathematical integer to a 64-bit signed
machine integer (Go's `int`, `int64`, `time.Duration` arithmetic). -/
def wrap64 (x : Int) : Int := (x + 2 ^ 63) % 2 ^ 64 - 2 ^ 63

/-- The rejection loop shared by `math/rand`'s `Int31n`/`Int63n`:
`v := draw(); for v > max { v = draw() }`, returning the first accepted value. -/
def intRejLoop (draw : Nat → Nat) (mx : Nat) : Nat → Nat → Option Nat
  | _, 0 => none
  | i, fuel + 1 => if mx < draw i then intRejLoop draw mx (i + 1) fuel else some (draw i)

/-- The `math/rand` function `Int63n` (the callee of `Intn` for large bounds): panics for
`n ≤ 0`; masks for powers of two; otherwise rejection-samples below
`max = 2^63 - 1 - 2^63 % n` and reduces modulo `n`. -/
def int63n (ds : Nat → Nat) (n : Int) (fuel : Nat) : GoResult Int :=
  if n ≤ 0 then .fatal
  else
    let m := n.toNat
    if m &&& (m - 1) = 0 then .ok ((int63 ds 0 &&& (m - 1) : Nat) : Int)
    else
      match intRejLoop (int63 ds) (2 ^ 63 - 1 - 2 ^ 63 % m) 0 fuel with
      | some v => .ok ((v % m : Nat) : Int)
      | none => .outOfFuel

/-- The `math/rand` function `Int31n` (the callee of `Intn` for bounds below `2^31`),
with `max = 2^31 - 1 - 2^31 % n`. -/
def int31n (ds : Nat → Nat) (n : Int) (fuel : Nat) : GoResult Int :=
  if n ≤ 0 then .fatal
  else
    let m := n.toNat
    if m &&& (m - 1) = 0 then .ok ((int31 ds 0 &&& (m - 1) : Nat) : Int)
    else
      match intRejLoop (int31 ds) (2 ^ 31 - 1 - 2 ^ 31 % m) 0 fuel with
      | some v => .ok ((v % m : Nat) : Int)
      | none => .outOfFuel

/-- The function `Intn` from rand.go, which is the `math/rand` `Intn` on the global generator:
panics for `n ≤ 0`, dispatches on the size of `n`. -/
def intn (ds : Nat → Nat) (n : Int) (fuel : Nat) : GoResult Int :=
  if n ≤ 0 then .fatal
  else if n ≤ 2 ^ 31 - 1 then int31n ds n fuel
  else int63n ds n fuel

/-- The function `IntnBetween` from rand.go: `globalRand.Intn(max-min) + min`, with the
subtraction and the addition performed in 64-bit machine arithmetic. -/
def intnBetween (ds : Nat → Nat) (lo hi : Int) (fuel : Nat) : GoResult Int :=
  match intn ds (wrap64 (hi - lo)) fuel with
  | .ok v => .ok (wrap64 (v + lo))
  | .fatal => .fatal
  | .outOfFuel => .outOfFuel

/-- The constant `defaultJitterFactor` from rand.go (the float literal `0.2`,
taken at its exact real value per the spec's §4.4 numeric semantics). -/
def defaultJitterFactor : ℚ := 1 / 5

/-- Go's conversion of a float to `time.Duration` (`int64`): truncation
toward zero. -/
def floatToDuration (q : ℚ) : Int := if q < 0 then ⌈q⌉ else ⌊q⌋

/-- The factor `Jitter` actually uses: the supplied one when present and
`> 0.0`, otherwise `defaultJitterFactor`. -/
def effFactor (mf : Option ℚ) : ℚ :=
  match mf with
  | some f => if 0 < f then f else defaultJitterFactor
  | none => defaultJitterFactor

/-- One candidate perturbation of `Jitter`:
`time.Duration(randRange * factor * float64(duration))` with
`randRange = 2*Float64() - 1`, the float arithmetic taken exactly
(`u` is the `Float64()` draw). -/
def jitterDelta (factor : ℚ) (duration : Int) (u : ℚ) : Int :=
  floatToDuration ((2 * u - 1) * factor * (duration : ℚ))

/-- The `for newDuration <= 0` loop of `Jitter`: starting from
`newDuration = 0` the guard is initially true, so the loop computes
`duration + delta` candidates until one is strictly positive.
`deltas i` is the perturbation computed from the `i`-th `Float64()` draw;
the addition wraps in 64-bit arithmetic. `none` means the fuel ran out. -/
def jitterLoop (duration : Int) (deltas : Nat → Int) : Nat → Nat → Option Int
  | _, 0 => none
  | i, fuel + 1 =>
    let nd := wrap64 (duration + deltas i)
    if nd ≤ 0 then jitterLoop duration deltas (i + 1) fuel else some nd

/-- The function `Jitter` from rand.go over the stream `us` of `Float64()` draws. -/
def jitter (duration : Int) (mf : Option ℚ) (us : Nat → ℚ) (fuel : Nat) : Option Int :=
  jitterLoop duration (fun i => jitterDelta (effFactor mf) duration (us i)) 0 fuel

/-- The `encoding/binary` function `LittleEndian.Uint64`:
`uint64(b[0]) | uint64(b[1])<<8 | ... | uint64(b[7])<<56`. -/
def leUint64 (b : Fin 8 → Nat) : Nat :=
  b 0 ||| b 1 <<< 8 ||| b 2 <<< 16 ||| b 3 <<< 24 |||
    b 4 <<< 32 ||| b 5 <<< 40 ||| b 6 <<< 48 ||| b 7 <<< 56

/-- The function `getRandSeed` from rand.go. `bytes` is the result of the crypto/rand read
(`none` models a read error), `nowNanos` the wall clock in nanoseconds. -/
def getRandSeed (bytes : Option (Fin 8 → Nat)) (nowNanos : Int) : Int :=
  match bytes with
  | some b => ((leUint64 b &&& (2 ^ 63 - 1) : Nat) : Int)
  | none => nowNanos

/-- From the spec, §4.5 step 1: "`k` = number of bits needed to index into the
alphabet: the smallest integer such that `2^k ≥ |alphabet|`
(i.e., `k = ceil(log2(|alphabet|))`, with the convention that an alphabet of
size 1 needs `k ≥ 1`)". -/
def specK (m : Nat) : Nat := max (Nat.clog 2 m) 1

/-- From the spec, §4.5 steps 4-6: per output symbol, refresh the draw when
remaining-slots is 0; extract the low `k` bits via the mask; emit and advance
the output position on a value `< |alphabet|`, discard otherwise; always shift
right by `k` and decrement remaining-slots. `i` is the output position. -/
def specStringLoop (a : List Char) (k amax n : Nat) (ds : Nat → Nat) :
    Nat → Nat → Nat → Nat → Nat → List Char → GoResult (List Char)
  | 0, _, _, _, _, _ => .outOfFuel
  | fuel + 1, cur, rem, j, i, out =>
    if i = n then .ok out
    else
      let st := if rem = 0 then (int63 ds j, amax, j + 1) else (cur, rem, j)
      let v := st.1 &&& (2 ^ k - 1)
      if v < a.length then
        specStringLoop a k amax n ds fuel (st.1 >>> k) (st.2.1 - 1) st.2.2 (i + 1)
          (out ++ [a.getD v 'a'])
      else
        specStringLoop a k amax n ds fuel (st.1 >>> k) (st.2.1 - 1) st.2.2 i out

/-- The reference `RandomString` algorithm of spec §4.5, for comparison with
`randString`: `slotsPerDraw = floor(63/k)`, state initialised to a fresh draw
and `slotsPerDraw`, empty output. -/
def specRandomString (ds : Nat → Nat) (n : Nat) (alphabet : List Char) (fuel : Nat) :
    GoResult (List Char) :=
  let a := if 0 < alphabet.length then alphabet else AlphanumAlphabet
  let k := specK a.length
  specStringLoop a k (63 / k) n ds fuel (int63 ds 0) (63 / k) 1 0 []

/-! ## Characterisation of `countBits` -/

theorem le_countBitsGo : ∀ (fuel x acc : Nat), acc ≤ countBitsGo fuel x acc
  | 0, _, _ => le_refl _
  | fuel + 1, x, acc => by
    rw [countBitsGo]
    by_cases hx : 0 < x
    · simpa [hx] using le_trans (Nat.le_succ acc) (le_countBitsGo fuel (x / 2) (acc + 1))
    · simp [hx]

theorem countBitsGo_le_iff : ∀ (fuel x acc j : Nat), x < 2 ^ fuel →
    (countBitsGo fuel x acc ≤ acc + j ↔ x < 2 ^ j)
  | 0, x, acc, j, h => by
    have hx : x = 0 := by simpa using h
    subst hx
    exact iff_of_true (by simp [countBitsGo]) (Nat.two_pow_pos j)
  | fuel + 1, x, acc, j, h => by
    by_cases hx : 0 < x
    · rw [countBitsGo, if_pos hx]
      cases j with
      | zero =>
        have h1 := le_countBitsGo fuel (x / 2) (acc + 1)
        constructor
        · intro hle; omega
        · intro hlt; omega
      | succ j =>
        have hdiv : x / 2 < 2 ^ fuel := by
          have h2 : x < 2 ^ fuel * 2 := by
            have : 2 ^ (fuel + 1) = 2 ^ fuel * 2 := pow_succ 2 fuel
            omega
          omega
        have ih := countBitsGo_le_iff fuel (x / 2) (acc + 1) j hdiv
        have hsplit : 2 ^ (j + 1) = 2 ^ j * 2 := pow_succ 2 j
        rw [show acc + (j + 1) = acc + 1 + j by omega, ih]
        omega
    · rw [countBitsGo, if_neg hx]
      exact iff_of_true (Nat.le_add_right acc j) (by have := Nat.two_pow_pos j; omega)

theorem countBits_le_iff (x j : Nat) : countBits x ≤ j ↔ x - 1 < 2 ^ j := by
  have hf : x - 1 < 2 ^ x := lt_of_le_of_lt (Nat.sub_le x 1) (Nat.lt_two_pow x)
  simpa using countBitsGo_le_iff x (x - 1) 0 j hf

theorem le_two_pow_countBits (x : Nat) : x ≤ 2 ^ countBits x := by
  have h := (countBits_le_iff x (countBits x)).1 le_rfl
  omega

theorem countBits_le_of_le {x j : Nat} (h : x ≤ 2 ^ j) : countBits x ≤ j :=
  (countBits_le_iff x j).2 (by have := Nat.two_pow_pos j; omega)

theorem countBits_eq_zero_iff (x : Nat) : countBits x = 0 ↔ x ≤ 1 := by
  rw [← Nat.le_zero, countBits_le_iff]
  simp; omega

theorem countBits_eq_clog (x : Nat) : countBits x = Nat.clog 2 x := by
  refine le_antisymm ?_ ?_
  · exact countBits_le_of_le ((Nat.le_pow_iff_clog_le one_lt_two).2 le_rfl)
  · exact (Nat.le_pow_iff_clog_le one_lt_two).1 (le_two_pow_countBits x)

theorem specK_eq_countBits {x : Nat} (h : 2 ≤ x) : specK x = countBits x := by
  rw [specK, countBits_eq_clog, max_eq_left (Nat.clog_pos one_lt_two h)]

/-! ## Partial correctness of `String` (length and alphabet membership) -/

theorem mem_of_getD {a : List Char} {idx : Nat} (h : idx < a.length) (d : Char) :
    a.getD idx d ∈ a := by
  rw [List.getD_eq_getElem?_getD, List.getElem?_eq_getElem h]
  exact List.getElem_mem h

theorem stringLoop_ok {a : List Char} {k mask amax n : Nat} {ds : Nat → Nat} :
    ∀ {fuel cur rem j : Nat} {acc s : List Char},
      (∀ c ∈ acc, c ∈ a) → acc.length ≤ n →
      stringLoop a k mask amax n ds fuel cur rem j acc = .ok s →
      s.length = n ∧ ∀ c ∈ s, c ∈ a := by
  intro fuel
  induction fuel with
  | zero => intro _ _ _ _ _ _ _ h; exact absurd h (by simp [stringLoop])
  | succ fuel ih =>
    intro cur rem j acc s hmem hlen h
    rw [stringLoop] at h
    by_cases hlt : acc.length < n
    · rw [if_pos hlt] at h
      refine ih ?_ ?_ h
      · intro c hc
        by_cases hidx : ((if rem = 0 then (int63 ds j, amax, j + 1)
            else (cur, rem, j)).1 &&& mask) < a.length
        · rw [if_pos hidx] at hc
          rcases List.mem_append.1 hc with h1 | h1
          · exact hmem c h1
          · rw [List.mem_singleton.1 h1]; exact mem_of_getD hidx _
        · rw [if_neg hidx] at hc; exact hmem c hc
      · by_cases hidx : ((if rem = 0 then (int63 ds j, amax, j + 1)
            else (cur, rem, j)).1 &&& mask) < a.length
        · rw [if_pos hidx]; simp; omega
        · rw [if_neg hidx]; omega
    · rw [if_neg hlt] at h
      cases h
      exact ⟨by omega, hmem⟩

/-- C1: for every length `n ≥ 0` and every supplied alphabet, whenever
`String` returns, its result has exactly `n` symbols, each drawn from the
alphabet used (the supplied one if non-empty, the default alphanumeric
alphabet otherwise), and for `n = 0` the result is the empty string. -/
theorem randString_length_mem (ds : Nat → Nat) (n : Nat) (alphabet : List Char)
    (fuel : Nat) (s : List Char) (h : randString ds n alphabet fuel = .ok s) :
    s.length = n ∧
      (∀ c ∈ s, c ∈ if 0 < alphabet.length then alphabet else AlphanumAlphabet) ∧
      (n = 0 → s = []) := by
  rw [randString] at h
  by_cases hb : countBits (if 0 < alphabet.length then alphabet
      else AlphanumAlphabet).length = 0
  · rw [if_pos hb] at h; cases h
  · rw [if_neg hb] at h
    obtain ⟨h1, h2⟩ := stringLoop_ok (by simp) (by simp) h
    exact ⟨h1, h2, fun h0 => by rw [← List.length_eq_zero, h1, h0]⟩

/-- Witness for C1 at `n = 2`, alphabet `"ab"`, the all-zero draw stream. -/
theorem randString_length_mem_witness :
    (['a', 'a'] : List Char).length = 2 ∧
      (∀ c ∈ (['a', 'a'] : List Char),
        c ∈ if 0 < (['a', 'b'] : List Char).length then ['a', 'b'] else AlphanumAlphabet) ∧
      (2 = 0 → (['a', 'a'] : List Char) = []) :=
  randString_length_mem (fun _ => 0) 2 ['a', 'b'] 3 ['a', 'a'] (by decide)

/-! ## Failure analysis of `String` -/

theorem stringLoop_ne_fatal {a : List Char} {k mask amax n : Nat} {ds : Nat → Nat} :
    ∀ {fuel cur rem j : Nat} {acc : List Char},
      stringLoop a k mask amax n ds fuel cur rem j acc ≠ .fatal := by
  intro fuel
  induction fuel with
  | zero => intro _ _ _ _ h; exact absurd h (by simp [stringLoop])
  | succ fuel ih =>
    intro cur rem j acc h
    rw [stringLoop] at h
    by_cases hlt : acc.length < n
    · rw [if_pos hlt] at h; exact ih h
    · rw [if_neg hlt] at h; cases h

/-- C2 counterexample: for the non-empty one-symbol alphabet `"a"` and the
valid length `0`, `String` aborts (the slots-per-draw division `63/0` is a
run-time panic), so it is not failure-free for every non-empty alphabet. -/
theorem randString_fatal_singleton :
    randString (fun _ => 0) 0 ['a'] 1 = GoResult.fatal := by decide

/-- C2 (amended): for every supplied alphabet whose size is not exactly 1
(every size `≥ 2`, and the empty alphabet which falls back to the default)
and every length, `String` never aborts: the bit-width, mask, slots-per-draw
division and buffer indexing are all well-defined.  For a one-symbol alphabet
the bit-width is `0` and the slots-per-draw division divides by zero. -/
theorem randString_no_fatal (ds : Nat → Nat) (n : Nat) (alphabet : List Char)
    (fuel : Nat) (h : alphabet.length ≠ 1) :
    randString ds n alphabet fuel ≠ GoResult.fatal := by
  simp only [randString]
  by_cases h0 : 0 < alphabet.length
  · simp only [if_pos h0]
    have hbits : ¬ countBits alphabet.length = 0 := by
      rw [countBits_eq_zero_iff]; omega
    rw [if_neg hbits]
    exact stringLoop_ne_fatal
  · simp only [if_neg h0]
    have hbits : ¬ countBits AlphanumAlphabet.length = 0 := by decide
    rw [if_neg hbits]
    exact stringLoop_ne_fatal

/-- Witness for C2 (amended) at the two-symbol alphabet `"ab"`. -/
theorem randString_no_fatal_witness :
    randString (fun _ => 0) 2 ['a', 'b'] 3 ≠ GoResult.fatal :=
  randString_no_fatal (fun _ => 0) 2 ['a', 'b'] 3 (by decide)

/-! ## Refinement: `String` against the spec §4.5 reference algorithm -/

theorem stringLoop_eq_specStringLoop {a : List Char} {k amax n : Nat} {ds : Nat → Nat} :
    ∀ (fuel cur rem j : Nat) (acc : List Char), acc.length ≤ n →
      stringLoop a k (2 ^ k - 1) amax n ds fuel cur rem j acc =
        specStringLoop a k amax n ds fuel cur rem j acc.length acc
  | 0, _, _, _, _, _ => rfl
  | fuel + 1, cur, rem, j, acc, hle => by
    simp only [stringLoop, specStringLoop]
    by_cases he : acc.length = n
    · rw [if_neg (by omega), if_pos he]
    · rw [if_pos (by omega), if_neg he]
      set st := if rem = 0 then (int63 ds j, amax, j + 1) else (cur, rem, j) with hst
      by_cases hidx : st.1 &&& (2 ^ k - 1) < a.length
      · rw [if_pos hidx, if_pos hidx]
        have h2 : (acc ++ [a.getD (st.1 &&& (2 ^ k - 1)) 'a']).length ≤ n := by
          simp; omega
        have h3 := @stringLoop_eq_specStringLoop a k amax n ds fuel (st.1 >>> k)
          (st.2.1 - 1) st.2.2 (acc ++ [a.getD (st.1 &&& (2 ^ k - 1)) 'a']) h2
        simpa using h3
      · rw [if_neg hidx, if_neg hidx]
        exact @stringLoop_eq_specStringLoop a k amax n ds fuel (st.1 >>> k)
          (st.2.1 - 1) st.2.2 acc hle

/-- C4 counterexample: on the one-symbol alphabet `"a"`, `String` panics
(its bit-width computation yields `k = 0`, not the spec's `k ≥ 1`), while the
spec §4.5 reference algorithm produces `"a"`: the implementation does not
follow the reference algorithm there. -/
theorem randString_spec_mismatch_singleton :
    randString (fun _ => 0) 1 ['a'] 2 = GoResult.fatal ∧
      specRandomString (fun _ => 0) 1 ['a'] 2 = GoResult.ok ['a'] := by
  constructor
  · decide
  · have e2 : specK 1 = 1 := by simp [specK, Nat.clog_one_right]
    have estep : specRandomString (fun _ => 0) 1 ['a'] 2 =
        specStringLoop ['a'] (specK 1) (63 / specK 1) 1 (fun _ => 0) 2
          (int63 (fun _ => 0) 0) (63 / specK 1) 1 0 [] := rfl
    rw [estep, e2]
    decide

/-- C4 (amended): for every effective alphabet of size at least 2 (every
supplied alphabet of size ≥ 2, and the default alphabet when the supplied one
is empty or omitted), `String` implements exactly the bit-extraction
rejection-sampling reference algorithm of spec §4.5, with the same bit width
`k` (the smallest integer with `2^k ≥ |alphabet|`), mask `2^k - 1`,
`slotsPerDraw = floor(63/k)`, and identical accept/reject stepping on the
same draw stream.  For a one-symbol alphabet the two differ: the code aborts
instead of using the spec's `k ≥ 1` convention. -/
theorem randString_eq_specRandomString (ds : Nat → Nat) (n : Nat)
    (alphabet : List Char) (fuel : Nat)
    (h : 2 ≤ (if 0 < alphabet.length then alphabet else AlphanumAlphabet).length) :
    randString ds n alphabet fuel = specRandomString ds n alphabet fuel := by
  simp only [randString, specRandomString]
  rw [specK_eq_countBits h]
  have hbits : ¬ countBits (if 0 < alphabet.length then alphabet
      else AlphanumAlphabet).length = 0 := by
    rw [countBits_eq_zero_iff]; omega
  rw [if_neg hbits, Nat.one_shiftLeft]
  simpa using stringLoop_eq_specStringLoop fuel (int63 ds 0)
    (63 / countBits (if 0 < alphabet.length then alphabet else AlphanumAlphabet).length)
    1 [] (by simp)

/-- Witness for C4 (amended) at the alphabet `"ab"`. -/
theorem randString_eq_specRandomString_witness :
    randString (fun _ => 0) 1 ['a', 'b'] 2 = specRandomString (fun _ => 0) 1 ['a', 'b'] 2 :=
  randString_eq_specRandomString (fun _ => 0) 1 ['a', 'b'] 2 (by decide)

/-! ## `Intn` and `IntnBetween` -/

theorem wrap64_eq_self {x : Int} (h1 : -2 ^ 63 ≤ x) (h2 : x < 2 ^ 63) :
    wrap64 x = x := by
  have e1 : (2 : Int) ^ 63 = 9223372036854775808 := by norm_num
  have e2 : (2 : Int) ^ 64 = 18446744073709551616 := by norm_num
  simp only [wrap64, e1, e2] at *
  omega

theorem int31n_range (ds : Nat → Nat) (n : Int) (fuel : Nat) (hn : 0 < n) :
    int31n ds n fuel ≠ .fatal ∧
      ∀ v, int31n ds n fuel = .ok v → 0 ≤ v ∧ v < n := by
  have hm : 0 < n.toNat := by omega
  have hcast : (n.toNat : Int) = n := by omega
  rw [int31n, if_neg (by omega)]
  by_cases hp : n.toNat &&& (n.toNat - 1) = 0
  · rw [if_pos hp]
    refine ⟨by simp, fun v hv => ?_⟩
    cases hv
    have hlt : int31 ds 0 &&& (n.toNat - 1) < n.toNat :=
      lt_of_le_of_lt Nat.and_le_right (by omega)
    exact ⟨Int.natCast_nonneg _, by rw [← hcast]; exact_mod_cast hlt⟩
  · rw [if_neg hp]
    cases h' : intRejLoop (int31 ds) (2 ^ 31 - 1 - 2 ^ 31 % n.toNat) 0 fuel with
    | none => simp [h']
    | some w =>
      simp only [h']
      refine ⟨by simp, fun v hv => ?_⟩
      cases hv
      have hlt : w % n.toNat < n.toNat := Nat.mod_lt w hm
      exact ⟨Int.natCast_nonneg _, by rw [← hcast]; exact_mod_cast hlt⟩

theorem int63n_range (ds : Nat → Nat) (n : Int) (fuel : Nat) (hn : 0 < n) :
    int63n ds n fuel ≠ .fatal ∧
      ∀ v, int63n ds n fuel = .ok v → 0 ≤ v ∧ v < n := by
  have hm : 0 < n.toNat := by omega
  have hcast : (n.toNat : Int) = n := by omega
  rw [int63n, if_neg (by omega)]
  by_cases hp : n.toNat &&& (n.toNat - 1) = 0
  · rw [if_pos hp]
    refine ⟨by simp, fun v hv => ?_⟩
    cases hv
    have hlt : int63 ds 0 &&& (n.toNat - 1) < n.toNat :=
      lt_of_le_of_lt Nat.and_le_right (by omega)
    exact ⟨Int.natCast_nonneg _, by rw [← hcast]; exact_mod_cast hlt⟩
  · rw [if_neg hp]
    cases h' : intRejLoop (int63 ds) (2 ^ 63 - 1 - 2 ^ 63 % n.toNat) 0 fuel with
    | none => simp [h']
    | some w =>
      simp only [h']
      refine ⟨by simp, fun v hv => ?_⟩
      cases hv
      have hlt : w % n.toNat < n.toNat := Nat.mod_lt w hm
      exact ⟨Int.natCast_nonneg _, by rw [← hcast]; exact_mod_cast hlt⟩

theorem intn_range (ds : Nat → Nat) (n : Int) (fuel : Nat) (hn : 0 < n) :
    intn ds n fuel ≠ .fatal ∧ ∀ v, intn ds n fuel = .ok v → 0 ≤ v ∧ v < n := by
  rw [intn, if_neg (by omega)]
  by_cases hs : n ≤ 2 ^ 31 - 1
  · rw [if_pos hs]; exact int31n_range ds n fuel hn
  · rw [if_neg hs]; exact int63n_range ds n fuel hn

theorem intn_fatal_of_nonpos (ds : Nat → Nat) (n : Int) (fuel : Nat) (hn : n ≤ 0) :
    intn ds n fuel = .fatal := by
  rw [intn, if_pos hn]

/-- C5: for every `n > 0`, `Intn` never panics and any value it returns lies
in `[0, n)` — never `n`, never negative; for every `n ≤ 0` it panics. -/
theorem intn_spec (ds : Nat → Nat) (n : Int) (fuel : Nat) :
    (0 < n → intn ds n fuel ≠ GoResult.fatal ∧
      ∀ v, intn ds n fuel = GoResult.ok v → 0 ≤ v ∧ v < n) ∧
    (n ≤ 0 → intn ds n fuel = GoResult.fatal) :=
  ⟨fun hn => intn_range ds n fuel hn, fun hn => intn_fatal_of_nonpos ds n fuel hn⟩

/-- Witness for C5 at `n = 3` (value `0` on the all-zero stream) and `n = -1`. -/
theorem intn_spec_witness :
    ((0 : Int) ≤ 0 ∧ (0 : Int) < 3) ∧ intn (fun _ => 0) (-1) 1 = GoResult.fatal :=
  ⟨((intn_spec (fun _ => 0) 3 1).1 (by norm_num)).2 0 (by decide),
    (intn_spec (fun _ => 0) (-1) 1).2 (by norm_num)⟩

/-- C6 counterexample: for `min = 2^63 - 1`, `max = -2^63` we have
`max ≤ min`, yet `IntnBetween` does not fail: the machine subtraction
`max - min` wraps around to `1`, so the call returns `min` normally instead
of panicking as the claim requires for every `max ≤ min`. -/
theorem intnBetween_wrap_no_fatal :
    ((-2 ^ 63 : Int) ≤ 2 ^ 63 - 1) ∧
      intnBetween (fun _ => 0) (2 ^ 63 - 1) (-2 ^ 63) 1 = GoResult.ok (2 ^ 63 - 1) := by
  refine ⟨by norm_num, ?_⟩
  have hw : wrap64 ((-2 ^ 63 : Int) - (2 ^ 63 - 1)) = 1 := by
    have e1 : (2 : Int) ^ 63 = 9223372036854775808 := by norm_num
    have e2 : (2 : Int) ^ 64 = 18446744073709551616 := by norm_num
    simp only [wrap64, e1, e2]
    decide
  rw [intnBetween, hw]
  have h1 : intn (fun _ => 0) 1 1 = GoResult.ok 0 := by decide
  rw [h1]
  have hw2 : wrap64 ((0 : Int) + (2 ^ 63 - 1)) = 2 ^ 63 - 1 :=
    wrap64_eq_self (by norm_num) (by norm_num)
  show GoResult.ok (wrap64 ((0 : Int) + (2 ^ 63 - 1))) = GoResult.ok (2 ^ 63 - 1)
  rw [hw2]

/-- C6 (amended): for machine integers `lo < hi` whose difference does not
overflow (`hi - lo ≤ 2^63 - 1`), `IntnBetween lo hi` is `Intn (hi - lo) + lo`
on the same draws and every returned value lies in `[lo, hi)`; for `hi ≤ lo`
whose difference does not overflow (`hi - lo ≥ -2^63`), it fails with the
same fatal error as `Intn` on a non-positive bound.  When the 64-bit
subtraction `hi - lo` overflows, neither behaviour is preserved (see C10). -/
theorem intnBetween_spec (ds : Nat → Nat) (lo hi : Int) (fuel : Nat) :
    (-2 ^ 63 ≤ lo → hi < 2 ^ 63 → lo < hi → hi - lo < 2 ^ 63 →
      (∀ v, intn ds (hi - lo) fuel = GoResult.ok v →
        intnBetween ds lo hi fuel = GoResult.ok (v + lo)) ∧
      ∀ v, intnBetween ds lo hi fuel = GoResult.ok v → lo ≤ v ∧ v < hi) ∧
    (hi ≤ lo → -2 ^ 63 ≤ hi - lo → intnBetween ds lo hi fuel = GoResult.fatal) := by
  constructor
  · intro hlo hhi hlt hnof
    have hw : wrap64 (hi - lo) = hi - lo := wrap64_eq_self (by omega) hnof
    have hrange := intn_range ds (hi - lo) fuel (by omega)
    constructor
    · intro v hv
      have hb := hrange.2 v hv
      rw [intnBetween, hw, hv]
      have hww : wrap64 (v + lo) = v + lo := wrap64_eq_self (by omega) (by omega)
      show GoResult.ok (wrap64 (v + lo)) = GoResult.ok (v + lo)
      rw [hww]
    · intro v hv
      rw [intnBetween, hw] at hv
      cases h' : intn ds (hi - lo) fuel with
      | ok w =>
        have hb := hrange.2 w h'
        rw [h'] at hv
        have hww : wrap64 (w + lo) = w + lo := wrap64_eq_self (by omega) (by omega)
        have hv2 : GoResult.ok (wrap64 (w + lo)) = GoResult.ok v := hv
        rw [hww] at hv2
        cases hv2
        omega
      | fatal =>
        rw [h'] at hv
        cases show GoResult.fatal = GoResult.ok v from hv
      | outOfFuel =>
        rw [h'] at hv
        cases show GoResult.outOfFuel = GoResult.ok v from hv
  · intro hge hnof
    have hp : (0 : Int) < 2 ^ 63 := by norm_num
    have hw : wrap64 (hi - lo) = hi - lo := wrap64_eq_self hnof (by omega)
    rw [intnBetween, hw, intn_fatal_of_nonpos ds (hi - lo) fuel (by omega)]

/-- Witness for C6 (amended): the range part at `lo = 0`, `hi = 3` and the
fatal part at `lo = hi = 5`. -/
theorem intnBetween_spec_witness :
    ((0 : Int) ≤ 0 ∧ (0 : Int) < 3) ∧
      intnBetween (fun _ => 0) 5 5 1 = GoResult.fatal :=
  ⟨((intnBetween_spec (fun _ => 0) 0 3 1).1 (by norm_num) (by norm_num) (by norm_num)
      (by norm_num)).2 0 (by decide),
    (intnBetween_spec (fun _ => 0) 5 5 1).2 (by norm_num) (by norm_num)⟩

/-- C10: for `min = -2^63`, `max = 1` (machine integers with `min < max`),
the 64-bit subtraction `max - min` wraps to the negative value `1 - 2^63`,
so `IntnBetween` panics through the underlying bounded-integer call even
though `min < max` holds. -/
theorem intnBetween_overflow_fatal (ds : Nat → Nat) (fuel : Nat) :
    ((-2 ^ 63 : Int) < 1) ∧ intnBetween ds (-2 ^ 63) 1 fuel = GoResult.fatal := by
  refine ⟨by norm_num, ?_⟩
  have hw : wrap64 ((1 : Int) - -2 ^ 63) = 1 - 2 ^ 63 := by
    have e1 : (2 : Int) ^ 63 = 9223372036854775808 := by norm_num
    have e2 : (2 : Int) ^ 64 = 18446744073709551616 := by norm_num
    simp only [wrap64, e1, e2]
    decide
  rw [intnBetween, hw, intn_fatal_of_nonpos ds (1 - 2 ^ 63) fuel (by norm_num)]

/-! ## Jitter -/

theorem effFactor_pos (mf : Option ℚ) : 0 < effFactor mf := by
  cases mf with
  | none => norm_num [effFactor, defaultJitterFactor]
  | some f =>
    by_cases h : 0 < f
    · simp only [effFactor, if_pos h]; exact h
    · simp only [effFactor, if_neg h]
      norm_num [defaultJitterFactor]

theorem jitterLoop_pos {duration : Int} {deltas : Nat → Int} :
    ∀ {fuel i : Nat} {v : Int}, jitterLoop duration deltas i fuel = some v → 0 < v := by
  intro fuel
  induction fuel with
  | zero => intro i v h; exact absurd h (by simp [jitterLoop])
  | succ fuel ih =>
    intro i v h
    simp only [jitterLoop] at h
    by_cases hc : wrap64 (duration + deltas i) ≤ 0
    · rw [if_pos hc] at h; exact ih h
    · rw [if_neg hc] at h
      cases h
      omega

/-- C3: whenever `Jitter` returns, the returned duration is strictly greater
than `0`, for every input duration, every factor and every sequence of
`Float64` draws: the rejection loop only exits on a strictly positive
candidate, and never clamps. -/
theorem jitter_pos (duration : Int) (mf : Option ℚ) (us : Nat → ℚ) (fuel : Nat)
    (v : Int) (h : jitter duration mf us fuel = some v) : 0 < v :=
  jitterLoop_pos h

/-- Witness for C3: `Jitter(5ns)` with the middle draw `u = 1/2` returns `5`. -/
theorem jitter_pos_witness : (0 : Int) < 5 :=
  jitter_pos 5 none (fun _ => 1 / 2) 1 5 (by
    have hd : jitterDelta (effFactor none) 5 (1 / 2) = 0 := by
      have harg : (2 * (1 / 2 : ℚ) - 1) * effFactor none * ((5 : Int) : ℚ) = 0 := by
        norm_num
      show floatToDuration ((2 * (1 / 2 : ℚ) - 1) * effFactor none * ((5 : Int) : ℚ)) = 0
      rw [harg]
      simp [floatToDuration]
    simp only [jitter, jitterLoop]
    rw [hd]
    norm_num [wrap64])

theorem jitterDelta_of_zero_duration (factor u : ℚ) : jitterDelta factor 0 u = 0 := by
  have harg : (2 * u - 1) * factor * ((0 : Int) : ℚ) = 0 := by push_cast; ring
  show floatToDuration ((2 * u - 1) * factor * ((0 : Int) : ℚ)) = 0
  rw [harg]
  simp [floatToDuration]

/-- C9: for the input duration `0`, `Jitter` never returns, whatever the
factor and the draws: every candidate is `0 + trunc(randRange*factor*0) = 0`,
never strictly positive, so the loop exhausts any amount of fuel. -/
theorem jitter_zero_duration_diverges (mf : Option ℚ) (us : Nat → ℚ) (fuel : Nat) :
    jitter 0 mf us fuel = none := by
  rw [jitter]
  have hz : ∀ (f i : Nat), jitterLoop 0
      (fun j => jitterDelta (effFactor mf) 0 (us j)) i f = none := by
    intro f
    induction f with
    | zero => intro i; rfl
    | succ f ih =>
      intro i
      simp only [jitterLoop]
      rw [jitterDelta_of_zero_duration]
      have hw : wrap64 ((0 : Int) + 0) = 0 := by norm_num [wrap64]
      rw [hw, if_pos le_rfl]
      exact ih (i + 1)
  exact hz fuel 0

theorem wrap64_mem_interval {x v : Int} {lo hi : ℚ}
    (hv : v = wrap64 x) (hpos : 0 < v)
    (hxlo : lo ≤ (x : ℚ)) (hxhi : (x : ℚ) < hi)
    (hsum0 : 0 < lo + hi) (hsum1 : lo + hi < 2 ^ 64) :
    lo ≤ (v : ℚ) ∧ (v : ℚ) < hi := by
  have e1 : (2 : Int) ^ 63 = 9223372036854775808 := by norm_num
  have e2 : (2 : Int) ^ 64 = 18446744073709551616 := by norm_num
  have hb2 : v < 9223372036854775808 := by
    rw [hv]; simp only [wrap64, e1, e2]; omega
  have hm : x - v = 18446744073709551616 *
      ((x + 9223372036854775808) / 18446744073709551616) := by
    rw [hv]; simp only [wrap64, e1, e2]; omega
  have hvq0 : (0 : ℚ) < (v : ℚ) := by exact_mod_cast hpos
  have hvq2 : (v : ℚ) < 9223372036854775808 := by exact_mod_cast hb2
  have hq64 : (2 : ℚ) ^ 64 = 18446744073709551616 := by norm_num
  rw [hq64] at hsum1
  rcases lt_trichotomy ((x + 9223372036854775808) / 18446744073709551616) 0
    with hm0 | hm0 | hm0
  · have hx : x ≤ v - 18446744073709551616 := by omega
    have hxq : (x : ℚ) ≤ (v : ℚ) - 18446744073709551616 := by exact_mod_cast hx
    constructor
    · linarith
    · linarith
  · have hx : v = x := by omega
    rw [hx]
    exact ⟨hxlo, hxhi⟩
  · have hx : v + 18446744073709551616 ≤ x := by omega
    have hxq : (v : ℚ) + 18446744073709551616 ≤ (x : ℚ) := by exact_mod_cast hx
    constructor
    · linarith
    · linarith

theorem jitterDelta_bounds {f : ℚ} {d : Int} {u : ℚ} (hf : 0 < f)
    (hd0 : 0 < d) (hu0 : 0 ≤ u) (hu1 : u < 1) :
    (d : ℚ) - f * d ≤ ((d + jitterDelta f d u : Int) : ℚ) ∧
      ((d + jitterDelta f d u : Int) : ℚ) < (d : ℚ) + f * d := by
  set t := (2 * u - 1) * f * (d : ℚ) with ht
  have hdq : (0 : ℚ) < (d : ℚ) := by exact_mod_cast hd0
  have hfd : 0 < f * d := mul_pos hf hdq
  have hr1 : -1 ≤ 2 * u - 1 := by linarith
  have hr2 : 2 * u - 1 < 1 := by linarith
  have htlo : -(f * (d : ℚ)) ≤ t := by
    have h1 := mul_le_mul_of_nonneg_right hr1 (le_of_lt hfd)
    calc -(f * (d : ℚ)) = -1 * (f * d) := by ring
    _ ≤ (2 * u - 1) * (f * d) := h1
    _ = t := by rw [ht]; ring
  have hthi : t < f * (d : ℚ) := by
    have h1 := mul_lt_mul_of_pos_right hr2 hfd
    calc t = (2 * u - 1) * (f * d) := by rw [ht]; ring
    _ < 1 * (f * d) := h1
    _ = f * d := by ring
  have hdelta : jitterDelta f d u = floatToDuration t := rfl
  by_cases hneg : t < 0
  · have hdel : jitterDelta f d u = ⌈t⌉ := by
      rw [hdelta]; simp only [floatToDuration, if_pos hneg]
    have h1 : t ≤ (⌈t⌉ : ℚ) := Int.le_ceil t
    have h2i : ⌈t⌉ ≤ (0 : Int) := Int.ceil_le.2 (by exact_mod_cast le_of_lt hneg)
    have h2 : (⌈t⌉ : ℚ) ≤ 0 := by exact_mod_cast h2i
    rw [hdel]
    push_cast
    constructor <;> linarith
  · have hnn : 0 ≤ t := not_lt.1 hneg
    have hdel : jitterDelta f d u = ⌊t⌋ := by
      rw [hdelta]; simp only [floatToDuration, if_neg hneg]
    have h1 : (⌊t⌋ : ℚ) ≤ t := Int.floor_le t
    have h2 : (0 : ℚ) ≤ (⌊t⌋ : ℚ) := by exact_mod_cast Int.floor_nonneg.2 hnn
    rw [hdel]
    push_cast
    constructor <;> linarith

theorem jitterLoop_mem {d : Int} {deltas : Nat → Int} {lo hi : ℚ}
    (hdelta : ∀ i, lo ≤ ((d + deltas i : Int) : ℚ) ∧ ((d + deltas i : Int) : ℚ) < hi)
    (hsum0 : 0 < lo + hi) (hsum1 : lo + hi < 2 ^ 64) :
    ∀ {fuel i : Nat} {v : Int}, jitterLoop d deltas i fuel = some v →
      lo ≤ (v : ℚ) ∧ (v : ℚ) < hi := by
  intro fuel
  induction fuel with
  | zero => intro i v h; exact absurd h (by simp [jitterLoop])
  | succ fuel ih =>
    intro i v h
    simp only [jitterLoop] at h
    by_cases hc : wrap64 (d + deltas i) ≤ 0
    · rw [if_pos hc] at h; exact ih h
    · rw [if_neg hc] at h
      cases h
      exact wrap64_mem_interval rfl (by omega) (hdelta i).1 (hdelta i).2 hsum0 hsum1

/-- C8: for every machine-representable duration `d > 0`, every value
returned by `Jitter` lies in `[d - f*d, d + f*d)`, where `f` is the supplied
factor when `> 0.0` and the default `0.2` otherwise, provided every
`Float64()` draw lies in `[0, 1)` (float arithmetic taken at its exact real
value, per spec §4.4). -/
theorem jitter_range (d : Int) (mf : Option ℚ) (us : Nat → ℚ) (fuel : Nat) (v : Int)
    (hd0 : 0 < d) (hd1 : d < 2 ^ 63) (hu : ∀ i, 0 ≤ us i ∧ us i < 1)
    (h : jitter d mf us fuel = some v) :
    (d : ℚ) - effFactor mf * d ≤ (v : ℚ) ∧ (v : ℚ) < (d : ℚ) + effFactor mf * d := by
  have hf := effFactor_pos mf
  have hdq : (0 : ℚ) < (d : ℚ) := by exact_mod_cast hd0
  have hdq1 : (d : ℚ) < 2 ^ 63 := by exact_mod_cast hd1
  have he : (2 : ℚ) ^ 64 = 2 * 2 ^ 63 := by norm_num
  exact jitterLoop_mem
    (fun i => jitterDelta_bounds hf hd0 (hu i).1 (hu i).2)
    (by linarith) (by linarith) h

/-- Witness for C8: `Jitter(2s)` (2e9 ns) with the middle draw `u = 1/2`
returns `2s`, inside `[d - d/5, d + d/5) = [1.6s, 2.4s)`. -/
theorem jitter_range_witness :
    ((2000000000 : Int) : ℚ) - effFactor none * ((2000000000 : Int) : ℚ) ≤
        ((2000000000 : Int) : ℚ) ∧
      ((2000000000 : Int) : ℚ) <
        ((2000000000 : Int) : ℚ) + effFactor none * ((2000000000 : Int) : ℚ) :=
  jitter_range 2000000000 none (fun _ => 1 / 2) 1 2000000000 (by norm_num) (by norm_num)
    (fun i => by norm_num) (by
      have hd : jitterDelta (effFactor none) 2000000000 (1 / 2) = 0 := by
        have harg : (2 * (1 / 2 : ℚ) - 1) * effFactor none * ((2000000000 : Int) : ℚ) = 0 := by
          norm_num
        show floatToDuration
          ((2 * (1 / 2 : ℚ) - 1) * effFactor none * ((2000000000 : Int) : ℚ)) = 0
        rw [harg]
        simp [floatToDuration]
      simp only [jitter, jitterLoop]
      rw [hd]
      norm_num [wrap64])

/-! ## The secure seed -/

theorem lor_shiftLeft_eq_add (x y k : Nat) (hx : x < 2 ^ k) :
    x ||| y <<< k = x + 2 ^ k * y := by
  apply Nat.eq_of_testBit_eq
  intro j
  rcases Nat.lt_or_ge j k with hj | hj
  · have hge : ¬ j ≥ k := by omega
    have hmod := Nat.testBit_mod_two_pow (x + 2 ^ k * y) k j
    rw [Nat.add_mul_mod_self_left, Nat.mod_eq_of_lt hx] at hmod
    simp only [Nat.testBit_or, Nat.testBit_shiftLeft, decide_eq_false hge,
      Bool.false_and, Bool.or_false]
    rw [hmod]
    simp [hj]
  · have hxj : x < 2 ^ j := lt_of_lt_of_le hx (Nat.pow_le_pow_right (by norm_num) hj)
    have hs : (x + 2 ^ k * y) >>> k = y := by
      rw [Nat.shiftRight_eq_div_pow, Nat.add_mul_div_left _ _ (Nat.two_pow_pos k),
        Nat.div_eq_of_lt hx]
      omega
    have hbit : (x + 2 ^ k * y).testBit j = y.testBit (j - k) := by
      calc (x + 2 ^ k * y).testBit j
          = (x + 2 ^ k * y).testBit (k + (j - k)) := by rw [Nat.add_sub_cancel' hj]
        _ = ((x + 2 ^ k * y) >>> k).testBit (j - k) := (Nat.testBit_shiftRight _).symm
        _ = y.testBit (j - k) := by rw [hs]
    rw [Nat.testBit_or, Nat.testBit_shiftLeft, Nat.testBit_lt_two_pow hxj, hbit]
    simp [hj]

theorem and_two_pow_sub_one_eq_mod (x k : Nat) : x &&& (2 ^ k - 1) = x % 2 ^ k := by
  apply Nat.eq_of_testBit_eq
  intro j
  rw [Nat.testBit_and, Nat.testBit_two_pow_sub_one, Nat.testBit_mod_two_pow]
  exact Bool.and_comm _ _

/-- The function `LittleEndian.Uint64` computes the positional base-256 value of its bytes
(least significant first): the or-of-shifted-bytes form of the source equals
the little-endian integer interpretation. -/
theorem leUint64_eq_sum (b : Fin 8 → Nat) (hb : ∀ i, b i < 256) :
    leUint64 b = b 0 + 256 ^ 1 * b 1 + 256 ^ 2 * b 2 + 256 ^ 3 * b 3 +
      256 ^ 4 * b 4 + 256 ^ 5 * b 5 + 256 ^ 6 * b 6 + 256 ^ 7 * b 7 := by
  have h0 : b 0 < 256 := hb 0
  have h1 : b 1 < 256 := hb 1
  have h2 : b 2 < 256 := hb 2
  have h3 : b 3 < 256 := hb 3
  have h4 : b 4 < 256 := hb 4
  have h5 : b 5 < 256 := hb 5
  have h6 : b 6 < 256 := hb 6
  have h7 : b 7 < 256 := hb 7
  rw [leUint64]
  rw [lor_shiftLeft_eq_add (b 0) (b 1) 8 (by norm_num; omega)]
  rw [lor_shiftLeft_eq_add (b 0 + 2 ^ 8 * b 1) (b 2) 16 (by norm_num; omega)]
  rw [lor_shiftLeft_eq_add (b 0 + 2 ^ 8 * b 1 + 2 ^ 16 * b 2) (b 3) 24
    (by norm_num; omega)]
  rw [lor_shiftLeft_eq_add (b 0 + 2 ^ 8 * b 1 + 2 ^ 16 * b 2 + 2 ^ 24 * b 3) (b 4) 32
    (by norm_num; omega)]
  rw [lor_shiftLeft_eq_add
    (b 0 + 2 ^ 8 * b 1 + 2 ^ 16 * b 2 + 2 ^ 24 * b 3 + 2 ^ 32 * b 4) (b 5) 40
    (by norm_num; omega)]
  rw [lor_shiftLeft_eq_add
    (b 0 + 2 ^ 8 * b 1 + 2 ^ 16 * b 2 + 2 ^ 24 * b 3 + 2 ^ 32 * b 4 + 2 ^ 40 * b 5)
    (b 6) 48 (by norm_num; omega)]
  rw [lor_shiftLeft_eq_add
    (b 0 + 2 ^ 8 * b 1 + 2 ^ 16 * b 2 + 2 ^ 24 * b 3 + 2 ^ 32 * b 4 + 2 ^ 40 * b 5 +
      2 ^ 48 * b 6) (b 7) 56 (by norm_num; omega)]
  norm_num

/-- C7: when the secure read succeeds, the seed is the 8 bytes interpreted as
a little-endian 64-bit unsigned integer with the sign bit cleared
(equivalently, reduced modulo `2^63`), hence a non-negative 63-bit value;
when the secure read fails, the seed is the wall-clock nanosecond value. -/
theorem getRandSeed_spec (b : Fin 8 → Nat) (nowNanos : Int) (hb : ∀ i, b i < 256) :
    getRandSeed (some b) nowNanos =
      (((b 0 + 256 ^ 1 * b 1 + 256 ^ 2 * b 2 + 256 ^ 3 * b 3 + 256 ^ 4 * b 4 +
        256 ^ 5 * b 5 + 256 ^ 6 * b 6 + 256 ^ 7 * b 7) % 2 ^ 63 : Nat) : Int) ∧
      0 ≤ getRandSeed (some b) nowNanos ∧
      getRandSeed (some b) nowNanos < 2 ^ 63 ∧
      getRandSeed none nowNanos = nowNanos := by
  have hsum := leUint64_eq_sum b hb
  have hmask := and_two_pow_sub_one_eq_mod (leUint64 b) 63
  refine ⟨?_, ?_, ?_, rfl⟩
  · show ((leUint64 b &&& (2 ^ 63 - 1) : Nat) : Int) = _
    rw [hmask, hsum]
  · exact Int.natCast_nonneg _
  · show ((leUint64 b &&& (2 ^ 63 - 1) : Nat) : Int) < 2 ^ 63
    rw [hmask]
    have hlt : leUint64 b % 2 ^ 63 < 2 ^ 63 := Nat.mod_lt _ (Nat.two_pow_pos 63)
    exact_mod_cast hlt

/-- Witness for C7 at the all-`0xFF` byte string (whose masked value is
`2^63 - 1`) and wall clock `7`. -/
theorem getRandSeed_spec_witness :
    getRandSeed (some fun _ => 255) 7 =
      (((255 + 256 ^ 1 * 255 + 256 ^ 2 * 255 + 256 ^ 3 * 255 + 256 ^ 4 * 255 +
        256 ^ 5 * 255 + 256 ^ 6 * 255 + 256 ^ 7 * 255) % 2 ^ 63 : Nat) : Int) ∧
      0 ≤ getRandSeed (some fun _ => 255) 7 ∧
      getRandSeed (some fun _ => 255) 7 < 2 ^ 63 ∧
      getRandSeed (none : Option (Fin 8 → Nat)) 7 = 7 :=
  getRandSeed_spec (fun _ => 255) 7 (fun _ => by norm_num)

end Xrand
